import Mathlib

/-!
Verification of the crossword CSP solver (`crossword/generate.py`).

The solver is embedded shallowly:

* Python strings become `List Char`; Python's `word[i]` becomes `List.get?`
  (an out-of-range access, which raises in Python, yields `none`).
* The per-variable domain dictionary (`self.domains`, mapping each variable
  to a set of candidate words) becomes a function `Variable → List Word`,
  updated pointwise exactly where the Python code mutates it.
* An assignment (a Python dict built by inserting one fresh key per search
  branch) becomes an association list, with insertion as `cons` and dict
  lookup as `alookup`.
* The recursive functions `ac3` and `backtrack` are embedded with an
  explicit fuel parameter; `none` means the fuel ran out (a model artifact:
  sufficiency of fuel is proved where termination is claimed).

The classes `Variable` and `Crossword` live in a module that is not among
the analysed sources; their interface (`variables`, `words`, `overlaps`,
`neighbors`) is modelled from the spec where noted below.
-/

namespace CrosswordCSP

/-- A candidate word: a Python string as a list of characters. -/
abbrev Word := List Char

/-- Modelled from the spec: a `Variable` "identifies one fillable slot.
Attributes: row, column (top-left cell), length (number of cells),
direction (one of ACROSS, DOWN). Two variables are equal iff all four
attributes match."  The `Variable` class itself is not among the analysed
sources. -/
structure Variable where
  row : Nat
  col : Nat
  down : Bool
  length : Nat
deriving DecidableEq

/-- Modelled from the spec: the `Crossword` class (grid model, vocabulary and
overlap index) is not among the analysed sources.  Per the spec it exposes the
set of variables, the vocabulary `words`, and an overlap index mapping a pair
of variables to "either `None` (no crossing) or a pair of integers
`(offset_in_a, offset_in_b)`".  Lists model the Python sets; the claims
settled here do not depend on element order or multiplicity. -/
structure Crossword where
  vars : List Variable
  words : List Word
  overlaps : Variable → Variable → Option (Nat × Nat)

/-- Modelled from the spec: `neighbors(variable)` is "the set of variables
with a recorded (non-null) overlap with the given variable" (overlaps relate
two distinct variables). -/
def neighbors (cw : Crossword) (x : Variable) : List Variable :=
  cw.vars.filter fun y => y != x && (cw.overlaps x y).isSome

/-- The domain store `self.domains`: each variable's current candidate words. -/
abbrev Domains := Variable → List Word

/-- The initial domain store built in `CrosswordCreator.__init__`: every
variable gets a copy of the full vocabulary. -/
def initialDomains (cw : Crossword) : Domains := fun _ => cw.words

/-- A partial assignment: the Python dict from variables to words, as an
association list (most recent insertion first). -/
abbrev Assignment := List (Variable × Word)

/-- Dict lookup `assignment[v]` / `v in assignment`, as an option. -/
def alookup : Assignment → Variable → Option Word
  | [], _ => none
  | (u, w) :: rest, v => if v = u then some w else alookup rest v

/-- `CrosswordCreator.enforce_node_consistency`: for every variable, remove
from its domain each word whose length differs from the variable's length. -/
def enforce_node_consistency (_cw : Crossword) (dom : Domains) : Domains :=
  fun v => (dom v).filter fun w => v.length == w.length

/-- `CrosswordCreator.revise`: returns the updated domain store and the
`revised` flag.  If the overlap of `x` and `y` is `None` the store is
untouched and the result is `False`; otherwise every word of `x`'s domain
with no matching word in `y`'s domain at the overlap offsets is removed, and
the flag reports whether anything was removed. -/
def revise (cw : Crossword) (dom : Domains) (x y : Variable) : Domains × Bool :=
  match cw.overlaps x y with
  | none => (dom, false)
  | some (ox, oy) =>
    let keep : Word → Bool := fun wx => (dom y).any fun wy => wx.get? ox == wy.get? oy
    (fun v => if v = x then (dom x).filter keep else dom v,
     (dom x).any fun wx => !keep wx)

/-- Python's `==` between a `Variable` and a `str` is always `False` (the
two classes are unrelated, so neither side's `__eq__` matches). -/
def varEqWord (_ : Variable) (_ : Word) : Bool := false

/-- The variables whose arcs toward `x` are re-enqueued after a successful
revision of `(x, y)`: the code (generate.py line 198) computes
`self.crossword.neighbors(x) - self.domains[y]`, the set difference between a
set of variables and a set of words; since no variable equals a word the
difference is `neighbors(x)` itself. -/
def ac3Requeue (cw : Crossword) (dom : Domains) (x y : Variable) : List Variable :=
  (neighbors cw x).filter fun z => !(dom y).any fun w => varEqWord z w

/-- The default AC-3 worklist built when `arcs is None`: every `(x, y)` for
every `y` in `neighbors(x)`. -/
def defaultArcs (cw : Crossword) : List (Variable × Variable) :=
  cw.vars.flatMap fun x => (neighbors cw x).map fun y => (x, y)

/-- The worklist loop of `CrosswordCreator.ac3`, with fuel (`none` = fuel ran
out).  Pops the first arc; on a revision that empties `x`'s domain it returns
`False` at once; on any other revision it appends the arcs `(z, x)` for `z`
in `ac3Requeue`; and — faithfully to the code, whose final statement is
`return False` — it also returns `False` when the worklist is exhausted. -/
def ac3Go (cw : Crossword) : Nat → Domains → List (Variable × Variable) →
    Option (Domains × Bool)
  | 0, _, _ => none
  | _ + 1, dom, [] => some (dom, false)
  | fuel + 1, dom, (x, y) :: rest =>
    match revise cw dom x y with
    | (dom', true) =>
      if (dom' x).length = 0 then some (dom', false)
      else ac3Go cw fuel dom' (rest ++ (ac3Requeue cw dom' x y).map fun z => (z, x))
    | (_, false) => ac3Go cw fuel dom rest

/-- `CrosswordCreator.ac3`: `none` for the `arcs` argument selects the
default worklist, mirroring the Python default `arcs=None`. -/
def ac3 (cw : Crossword) (dom : Domains) (arcs : Option (List (Variable × Variable)))
    (fuel : Nat) : Option (Domains × Bool) :=
  ac3Go cw fuel dom (match arcs with | none => defaultArcs cw | some l => l)

/-- `CrosswordCreator.assignment_complete`: every crossword variable has a
value in the assignment. -/
def assignment_complete (cw : Crossword) (a : Assignment) : Bool :=
  cw.vars.all fun v => (alookup a v).isSome

/-- The loop body of `CrosswordCreator.consistent`: walks the assignment's
items carrying the `previously_seen` word set; for each item checks word
uniqueness, the length constraint, and agreement with every assigned
neighbor at the overlap offsets.  The `none` overlap branch is unreachable
for items produced by the solver, since neighbors have a recorded overlap;
the dict value at the item's key is the item's word, keys being unique. -/
def consistentGo (cw : Crossword) (a : Assignment) :
    List (Variable × Word) → List Word → Bool
  | [], _ => true
  | (v, w) :: rest, seen =>
    if w ∈ seen then false
    else if w.length != v.length then false
    else if !((neighbors cw v).all fun nb =>
        match alookup a nb with
        | none => true
        | some wn =>
          match cw.overlaps v nb with
          | some (ox, oy) => w.get? ox == wn.get? oy
          | none => true) then false
    else consistentGo cw a rest (w :: seen)

/-- `CrosswordCreator.consistent`: distinct words, correct lengths, and all
assigned neighbor pairs agree at the overlap offsets. -/
def consistent (cw : Crossword) (a : Assignment) : Bool :=
  consistentGo cw a a []

/-- Stable insertion into a list sorted by `key` (kept before later elements
with an equal key). -/
def insertSorted (key : Word → Nat) (w : Word) : List Word → List Word
  | [] => [w]
  | u :: rest => if key w ≤ key u then w :: u :: rest else u :: insertSorted key w rest

/-- Stable sort by `key`, the behavior of Python's `sorted` with a key
function (stable sorts by a fixed key agree on all inputs). -/
def sortByKey (key : Word → Nat) : List Word → List Word
  | [] => []
  | w :: rest => insertSorted key w (sortByKey key rest)

/-- `CrosswordCreator.order_domain_values`: sort `var`'s candidates by how
many candidates of unassigned neighbors they rule out (least-constraining
value first); a neighbor candidate is ruled out when it disagrees at the
overlap offsets. -/
def order_domain_values (cw : Crossword) (dom : Domains) (v : Variable)
    (a : Assignment) : List Word :=
  let unassignedNbrs := (neighbors cw v).filter fun nb => (alookup a nb).isNone
  let conflicts : Word → Nat := fun w =>
    unassignedNbrs.foldl
      (fun acc nb =>
        match cw.overlaps v nb with
        | none => acc
        | some (ox, oy) =>
          acc + ((dom nb).filter fun w2 => !(w.get? ox == w2.get? oy)).length)
      0
  sortByKey conflicts (dom v)

/-- The selection loop of `CrosswordCreator.select_unassigned_variable`: the
accumulator holds `(min_values, chosen_var)`, `none` standing for the initial
`(float('inf'), None)`.  On a strictly smaller domain both are replaced; on a
tie the variable with the larger neighbor count wins (the dead
`min_values is None` disjunct of the code never fires, since `min_values` is
only compared after being set). -/
def suvGo (cw : Crossword) (dom : Domains) :
    List Variable → Option (Nat × Variable) → Option Variable
  | [], acc => acc.map (·.2)
  | v :: rest, none => suvGo cw dom rest (some ((dom v).length, v))
  | v :: rest, some (m, c) =>
    if (dom v).length < m then suvGo cw dom rest (some ((dom v).length, v))
    else if (dom v).length = m then
      if (neighbors cw c).length < (neighbors cw v).length then
        suvGo cw dom rest (some (m, v))
      else suvGo cw dom rest (some (m, c))
    else suvGo cw dom rest (some (m, c))

/-- `CrosswordCreator.select_unassigned_variable`: among the variables not in
the assignment, pick one with the fewest remaining domain values, ties broken
by the larger number of neighbors. -/
def select_unassigned_variable (cw : Crossword) (dom : Domains) (a : Assignment) :
    Option Variable :=
  suvGo cw dom (cw.vars.filter fun v => (alookup a v).isNone) none

/-- The `for value in self.order_domain_values(...)` loop of
`CrosswordCreator.backtrack`: extend the assignment with the candidate, test
`consistent`, recurse through the continuation `bt` (the search at the next
depth), propagate the first success, otherwise try the remaining candidates.
An inner `none` (fuel ran out in the model) is propagated unchanged. -/
def tryVals (cw : Crossword) (bt : Assignment → Option (Option Assignment))
    (a : Assignment) (v : Variable) : List Word → Option (Option Assignment)
  | [] => some none
  | w :: ws =>
    if consistent cw ((v, w) :: a) then
      match bt ((v, w) :: a) with
      | none => none
      | some (some r) => some (some r)
      | some none => tryVals cw bt a v ws
    else tryVals cw bt a v ws

/-- `CrosswordCreator.backtrack` with fuel: `none` = fuel ran out (model
artifact), `some none` = the Python `None` ("no solution"), `some (some r)` =
a returned assignment.  A complete assignment is returned as is; otherwise a
variable is selected and its ordered candidate values are tried.  The
`select` result is an option in the model; its `none` branch is unreachable
when the assignment is incomplete. -/
def backtrackF (cw : Crossword) (dom : Domains) : Nat → Assignment →
    Option (Option Assignment)
  | 0, _ => none
  | fuel + 1, a =>
    if assignment_complete cw a then some (some a)
    else
      match select_unassigned_variable cw dom a with
      | none => some none
      | some v => tryVals cw (backtrackF cw dom fuel) a v (order_domain_values cw dom v a)

/-- `CrosswordCreator.solve`: seed the domains, enforce node consistency,
run `ac3` — discarding its return value exactly as the Python code does —
and start the backtracking search on the empty assignment. -/
def solve (cw : Crossword) (fuel : Nat) : Option (Option Assignment) :=
  let dom1 := enforce_node_consistency cw (initialDomains cw)
  match ac3 cw dom1 none fuel with
  | none => none
  | some (dom2, _ignored) => backtrackF cw dom2 fuel []

/-- Arc consistency of `x` with respect to `y` on a domain store: every word
of `x`'s domain has a supporting word in `y`'s domain at the overlap offsets. -/
def arcCons (cw : Crossword) (dom : Domains) (x y : Variable) : Prop :=
  ∀ ox oy, cw.overlaps x y = some (ox, oy) →
    ∀ wx ∈ dom x, ∃ wy, wy ∈ dom y ∧ wx.get? ox = wy.get? oy

/-- Dict extension: every mapping of `a` is present in `r`. -/
def Extends (r a : Assignment) : Prop := ∀ p, p ∈ a → p ∈ r

/-- Number of crossword variables not yet assigned. -/
def unassignedCount (cw : Crossword) (a : Assignment) : Nat :=
  (cw.vars.filter fun v => (alookup a v).isNone).length

/-- Well-formed worklist: every arc runs from a puzzle variable to one of its
neighbors (true of the default worklist and preserved by re-enqueueing). -/
def ArcsWF (cw : Crossword) (arcs : List (Variable × Variable)) : Prop :=
  ∀ p ∈ arcs, p.1 ∈ cw.vars ∧ p.2 ∈ neighbors cw p.1

/-- The AC-3 loop invariant: every neighbor arc is either still on the
worklist or already arc-consistent under the current domains. -/
def ArcsInv (cw : Crossword) (dom : Domains) (arcs : List (Variable × Variable)) : Prop :=
  ∀ a b, a ∈ cw.vars → b ∈ neighbors cw a → (a, b) ∈ arcs ∨ arcCons cw dom a b

/-- Symmetry of the overlap index, the spec's data-model invariant: "if
`(a,b) -> (oa, ob)` then `(b,a) -> (ob, oa)`" (only the definedness half is
needed here). -/
def OverlapsSymm (cw : Crossword) : Prop :=
  ∀ a b, (cw.overlaps a b).isSome → (cw.overlaps b a).isSome

/-! Concrete puzzle instances used as witnesses and failing inputs. -/

/-- Across slot of length 2 at the origin. -/
def vA1 : Variable := ⟨0, 0, false, 2⟩

/-- Down slot of length 2 at the origin. -/
def vA2 : Variable := ⟨0, 0, true, 2⟩

/-- Instance A: two crossing length-2 slots sharing their first cell,
vocabulary `{"ab", "ac"}`; the initial domains are already arc-consistent
and the puzzle is solvable. -/
def cwA : Crossword :=
  ⟨[vA1, vA2], [['a', 'b'], ['a', 'c']],
   fun p q => if (p = vA1 ∧ q = vA2) ∨ (q = vA1 ∧ p = vA2) then some (0, 0) else none⟩

/-- The seeded domain store for instance A. -/
def domA : Domains := initialDomains cwA

/-- The assignment the search returns on instance A. -/
def aSolA : Assignment := [(vA2, ['a', 'c']), (vA1, ['a', 'b'])]

/-- Across slot of length 2 for instance B. -/
def vB1 : Variable := ⟨0, 0, false, 2⟩

/-- Down slot of length 2 for instance B. -/
def vB2 : Variable := ⟨0, 0, true, 2⟩

/-- Instance B: two crossing length-2 slots; the domain store below makes
`revise vB1 vB2` actually remove a word. -/
def cwB : Crossword :=
  ⟨[vB1, vB2], [['a', 'b'], ['x', 'y'], ['a', 'c']],
   fun p q => if (p = vB1 ∧ q = vB2) ∨ (q = vB1 ∧ p = vB2) then some (0, 0) else none⟩

/-- Domains for instance B: `"xy"` in `vB1`'s domain has no support in
`vB2`'s domain at the shared first cell. -/
def domB : Domains := fun v => if v = vB1 then [['a', 'b'], ['x', 'y']] else [['a', 'c']]

/-- The single length-3 slot of instance C. -/
def vC1 : Variable := ⟨0, 0, false, 3⟩

/-- Instance C: one slot, no crossings, vocabulary `{"cat"}`; solvable. -/
def cwC : Crossword := ⟨[vC1], [['c', 'a', 't']], fun _ _ => none⟩

/-- Across slot of length 1 for instance U. -/
def vU1 : Variable := ⟨0, 0, false, 1⟩

/-- Down slot of length 1 for instance U. -/
def vU2 : Variable := ⟨0, 0, true, 1⟩

/-- Instance U: two crossing length-1 slots sharing their only cell.  Any
complete assignment needs two distinct length-1 words with an equal first
character — impossible, so no consistent complete assignment exists at all. -/
def cwU : Crossword :=
  ⟨[vU1, vU2], [['a'], ['b']],
   fun p q => if (p = vU1 ∧ q = vU2) ∨ (q = vU1 ∧ p = vU2) then some (0, 0) else none⟩

/-- The single length-2 slot of instance D. -/
def vD1 : Variable := ⟨0, 0, false, 2⟩

/-- Instance D: one slot of length 2, no crossings. -/
def cwD : Crossword := ⟨[vD1], [['a', 'b']], fun _ _ => none⟩

/-- A complete but inconsistent assignment for instance D: the assigned word
has length 1 while the slot has length 2. -/
def aBad : Assignment := [(vD1, ['a'])]

/-! Helper lemmas. -/

/-- Membership in a node-consistent domain store. -/
theorem mem_enforce_node_consistency (cw : Crossword) (dom : Domains)
    (v : Variable) (w : Word) :
    w ∈ enforce_node_consistency cw dom v ↔ w ∈ dom v ∧ w.length = v.length := by
  simp only [enforce_node_consistency, List.mem_filter, beq_iff_eq]
  constructor <;> rintro ⟨h1, h2⟩ <;> exact ⟨h1, h2.symm⟩

/-- Unfolding of `revise` when the two variables overlap. -/
theorem revise_eq_of_overlap (cw : Crossword) (dom : Domains) (x y : Variable)
    (ox oy : Nat) (hov : cw.overlaps x y = some (ox, oy)) :
    revise cw dom x y =
      (fun v => if v = x then
          (dom x).filter (fun wx => (dom y).any fun wy => wx.get? ox == wy.get? oy)
        else dom v,
       (dom x).any fun wx => !((dom y).any fun wy => wx.get? ox == wy.get? oy)) := by
  unfold revise
  rw [hov]

/-- `revise` leaves every domain other than `x`'s untouched. -/
theorem revise_fst_ne (cw : Crossword) (dom : Domains) (x y v : Variable)
    (hv : v ≠ x) : (revise cw dom x y).1 v = dom v := by
  unfold revise
  cases hov : cw.overlaps x y with
  | none => rfl
  | some p =>
    cases p
    simp [hv]

/-- When the variables overlap, a word survives `revise` exactly when it was
in `x`'s domain and has support in `y`'s domain. -/
theorem revise_mem_iff (cw : Crossword) (dom : Domains) (x y : Variable)
    (ox oy : Nat) (hov : cw.overlaps x y = some (ox, oy)) (w : Word) :
    w ∈ (revise cw dom x y).1 x ↔
      w ∈ dom x ∧ ∃ w2, w2 ∈ dom y ∧ w.get? ox = w2.get? oy := by
  rw [revise_eq_of_overlap cw dom x y ox oy hov]
  simp [List.mem_filter, List.any_eq_true, beq_iff_eq]

/-- When the variables overlap, the `revised` flag is set exactly when some
word of `x`'s domain has no support in `y`'s domain. -/
theorem revise_snd_iff (cw : Crossword) (dom : Domains) (x y : Variable)
    (ox oy : Nat) (hov : cw.overlaps x y = some (ox, oy)) :
    (revise cw dom x y).2 = true ↔
      ∃ w, w ∈ dom x ∧ ∀ w2, w2 ∈ dom y → w.get? ox ≠ w2.get? oy := by
  rw [revise_eq_of_overlap cw dom x y ox oy hov]
  simp [List.any_eq_true, beq_iff_eq]

/-- A word surviving `revise` was already in `x`'s domain. -/
theorem revise_mem_sub (cw : Crossword) (dom : Domains) (x y : Variable)
    (w : Word) (h : w ∈ (revise cw dom x y).1 x) : w ∈ dom x := by
  unfold revise at h
  cases hov : cw.overlaps x y with
  | none => rw [hov] at h; exact h
  | some p =>
    cases p
    rw [hov] at h
    simp only [if_pos rfl] at h
    exact (List.mem_filter.1 h).1

/-- If `revise` reports no revision, the domain store is unchanged. -/
theorem revise_false_eq (cw : Crossword) (dom : Domains) (x y : Variable)
    (h : (revise cw dom x y).2 = false) : ∀ v, (revise cw dom x y).1 v = dom v := by
  intro v
  cases hov : cw.overlaps x y with
  | none =>
    unfold revise
    rw [hov]
  | some p =>
    obtain ⟨ox, oy⟩ := p
    rw [revise_eq_of_overlap cw dom x y ox oy hov] at h ⊢
    by_cases hv : v = x
    · simp only [hv, if_pos rfl]
      refine List.filter_eq_self.2 fun w hw => ?_
      have h' := List.any_eq_false.1 h w hw
      simpa using h'
    · simp [hv]

/-- If `revise` reports no revision on an overlapping pair, every word of
`x`'s domain has support in `y`'s domain. -/
theorem revise_false_supported (cw : Crossword) (dom : Domains) (x y : Variable)
    (ox oy : Nat) (hov : cw.overlaps x y = some (ox, oy))
    (h : (revise cw dom x y).2 = false) :
    ∀ w ∈ dom x, ∃ w2, w2 ∈ dom y ∧ w.get? ox = w2.get? oy := by
  intro w hw
  by_contra hns
  push_neg at hns
  have hset : (revise cw dom x y).2 = true :=
    (revise_snd_iff cw dom x y ox oy hov).2 ⟨w, hw, hns⟩
  rw [h] at hset
  exact Bool.false_ne_true hset

/-! Claim theorems. -/

/-- The re-enqueue set of the code equals all of `neighbors(x)` — the word
set subtracted on line 198 shares no element with a set of variables. -/
theorem ac3Requeue_eq (cw : Crossword) (dom : Domains) (x y : Variable) :
    ac3Requeue cw dom x y = neighbors cw x := by
  unfold ac3Requeue
  refine List.filter_eq_self.2 fun z _ => ?_
  simp [varEqWord]

/-- C2 (refuting evaluation).  On instance A the default worklist is
exhausted with no word ever removed — no domain becomes empty, all stay
non-empty — yet `ac3` returns `False`, not `True`; likewise for an empty
initial worklist.  The final `return False` of the code makes the success
value unreachable. -/
theorem claim_C2_ac3_false_on_success :
    ac3 cwA domA none 10 = some (domA, false) ∧
    (∀ v ∈ cwA.vars, domA v ≠ []) ∧
    ac3 cwA domA (some []) 1 = some (domA, false) :=
  ⟨rfl, by decide, rfl⟩

/-- C3 (refuting evaluation).  On instance C, `ac3` — run by `solve` right
after node consistency — reports `False` ("unsatisfiable"), yet `solve` does
not return the no-solution result: it ignores the report, runs the search
anyway and returns a complete assignment. -/
theorem claim_C3_solve_ignores_ac3 :
    (ac3 cwC (enforce_node_consistency cwC (initialDomains cwC)) none 5).map (·.2) =
      some false ∧
    solve cwC 5 = some (some [(vC1, ['c', 'a', 't'])]) :=
  ⟨rfl, rfl⟩

/-- C4 (refuting evaluation).  On instance B, `revise vB1 vB2` removes a word
and leaves `vB1`'s domain non-empty — the re-enqueue situation — and the arc
`(vB2, vB1)` IS among the arcs the code appends (the set difference
`neighbors(x) - domains[y]` removes nothing), though the claim requires the
arc `(y, x)` not to be re-enqueued. -/
theorem claim_C4_requeue_includes_y :
    (revise cwB domB vB1 vB2).2 = true ∧
    ((revise cwB domB vB1 vB2).1 vB1).length ≠ 0 ∧
    (vB2, vB1) ∈ (ac3Requeue cwB ((revise cwB domB vB1 vB2).1) vB1 vB2).map
      (fun z => (z, vB1)) :=
  ⟨by decide, by decide, by decide⟩

/-- C7.  `enforce_node_consistency` removes from each variable's domain
exactly the words whose length differs from the variable's length: afterwards
a word is in `v`'s domain iff it was there before and its length equals
`v.length` (so no length-matching word is removed, and no other word stays). -/
theorem claim_C7_node_consistency (cw : Crossword) (dom : Domains) :
    ∀ v w, w ∈ enforce_node_consistency cw dom v ↔ w ∈ dom v ∧ w.length = v.length := by
  intro v w
  exact mem_enforce_node_consistency cw dom v w

/-- C6.  For overlapping distinct variables `x` and `y` with recorded offsets
`(ox, oy)`, `revise x y` keeps in `x`'s domain exactly the words with a
matching word in `y`'s domain (removing exactly the unsupported ones), leaves
`y`'s and every other variable's domain unchanged, and returns `True` iff at
least one word was removed. -/
theorem claim_C6_revise_postcondition (cw : Crossword) (dom : Domains)
    (x y : Variable) (ox oy : Nat)
    (hov : cw.overlaps x y = some (ox, oy)) (hxy : x ≠ y) :
    (∀ w, w ∈ (revise cw dom x y).1 x ↔
        w ∈ dom x ∧ ∃ w2, w2 ∈ dom y ∧ w.get? ox = w2.get? oy) ∧
    (revise cw dom x y).1 y = dom y ∧
    (∀ v, v ≠ x → (revise cw dom x y).1 v = dom v) ∧
    ((revise cw dom x y).2 = true ↔
        ∃ w, w ∈ dom x ∧ ∀ w2, w2 ∈ dom y → w.get? ox ≠ w2.get? oy) := by
  refine ⟨fun w => revise_mem_iff cw dom x y ox oy hov w,
    revise_fst_ne cw dom x y y (fun h => hxy h.symm),
    fun v hv => revise_fst_ne cw dom x y v hv,
    revise_snd_iff cw dom x y ox oy hov⟩

/-- Witness for C6 at instance B: `revise vB1 vB2` removes `"xy"` (no word of
`vB2`'s domain starts with `'x'`), keeps `"ab"`, and reports `True`. -/
theorem claim_C6_revise_postcondition_witness :
    cwB.overlaps vB1 vB2 = some (0, 0) ∧ vB1 ≠ vB2 ∧
    ((∀ w, w ∈ (revise cwB domB vB1 vB2).1 vB1 ↔
        w ∈ domB vB1 ∧ ∃ w2, w2 ∈ domB vB2 ∧ w.get? 0 = w2.get? 0) ∧
    (revise cwB domB vB1 vB2).1 vB2 = domB vB2 ∧
    (∀ v, v ≠ vB1 → (revise cwB domB vB1 vB2).1 v = domB v) ∧
    ((revise cwB domB vB1 vB2).2 = true ↔
        ∃ w, w ∈ domB vB1 ∧ ∀ w2, w2 ∈ domB vB2 → w.get? 0 ≠ w2.get? 0)) :=
  ⟨rfl, by decide,
   claim_C6_revise_postcondition cwB domB vB1 vB2 0 0 rfl (by decide)⟩

/-- C10.  On a node-consistent domain store, with recorded overlap offsets
inside the two variables' lengths, every string index access made by
`revise` (namely `w[ox]` for `w` in `x`'s domain and `w2[oy]` for `w2` in
`y`'s domain — the same accesses the overlap check in `consistent` makes on
words satisfying the length constraint) is in bounds: the offset is below
the word's length and the modelled access `get?` returns a value. -/
theorem claim_C10_revise_index_safe (cw : Crossword) (dom : Domains)
    (x y : Variable) (ox oy : Nat)
    (hov : cw.overlaps x y = some (ox, oy))
    (hx : ox < x.length) (hy : oy < y.length) :
    (∀ w ∈ enforce_node_consistency cw dom x, ox < w.length ∧ (w.get? ox).isSome) ∧
    (∀ w2 ∈ enforce_node_consistency cw dom y, oy < w2.length ∧ (w2.get? oy).isSome) := by
  constructor
  · intro w hw
    have hlen := ((mem_enforce_node_consistency cw dom x w).1 hw).2
    have hlt : ox < w.length := by rw [hlen]; exact hx
    exact ⟨hlt, by rw [List.get?_eq_get hlt]; rfl⟩
  · intro w2 hw2
    have hlen := ((mem_enforce_node_consistency cw dom y w2).1 hw2).2
    have hlt : oy < w2.length := by rw [hlen]; exact hy
    exact ⟨hlt, by rw [List.get?_eq_get hlt]; rfl⟩

/-- Invariant of the selection loop: starting from accumulator `(m, c)` with
`m = |dom c|`, the loop returns a candidate from `l` or `c` itself whose
domain size is minimal and, among the minimal ones, whose neighbor count is
maximal. -/
theorem suvGo_spec (cw : Crossword) (dom : Domains) :
    ∀ (l : List Variable) (c : Variable),
    ∃ v, suvGo cw dom l (some ((dom c).length, c)) = some v ∧
      (v ∈ l ∨ v = c) ∧
      (∀ u ∈ l, (dom v).length ≤ (dom u).length) ∧
      (dom v).length ≤ (dom c).length ∧
      (∀ u ∈ l, (dom u).length = (dom v).length →
        (neighbors cw u).length ≤ (neighbors cw v).length) ∧
      ((dom c).length = (dom v).length →
        (neighbors cw c).length ≤ (neighbors cw v).length) := by
  intro l
  induction l with
  | nil =>
    intro c
    exact ⟨c, rfl, Or.inr rfl, by simp, le_refl _, by simp, fun _ => le_refl _⟩
  | cons u0 rest ih =>
    intro c
    by_cases h1 : (dom u0).length < (dom c).length
    · obtain ⟨v, hv, hmem, hrest, hu0, hdegrest, hdegu0⟩ := ih u0
      have hstep : suvGo cw dom (u0 :: rest) (some ((dom c).length, c)) =
          suvGo cw dom rest (some ((dom u0).length, u0)) := by
        simp [suvGo, if_pos h1]
      refine ⟨v, hstep ▸ hv, ?_, ?_, ?_, ?_, ?_⟩
      · rcases hmem with h | h
        · exact Or.inl (List.mem_cons_of_mem _ h)
        · exact Or.inl (h ▸ List.mem_cons_self _ _)
      · intro u hu
        rcases List.mem_cons.1 hu with rfl | hu
        · exact hu0
        · exact hrest u hu
      · exact le_of_lt (lt_of_le_of_lt hu0 h1)
      · intro u hu hlen
        rcases List.mem_cons.1 hu with rfl | hu
        · exact hdegu0 hlen
        · exact hdegrest u hu hlen
      · intro hlen
        exact absurd hlen (by
          have : (dom v).length < (dom c).length := lt_of_le_of_lt hu0 h1
          omega)
    · by_cases h2 : (dom u0).length = (dom c).length
      · by_cases h3 : (neighbors cw c).length < (neighbors cw u0).length
        · obtain ⟨v, hv, hmem, hrest, hu0, hdegrest, hdegu0⟩ := ih u0
          have hstep : suvGo cw dom (u0 :: rest) (some ((dom c).length, c)) =
              suvGo cw dom rest (some ((dom u0).length, u0)) := by
            simp only [suvGo]
            rw [if_neg h1, if_pos h2, if_pos h3, h2]
          refine ⟨v, hstep ▸ hv, ?_, ?_, ?_, ?_, ?_⟩
          · rcases hmem with h | h
            · exact Or.inl (List.mem_cons_of_mem _ h)
            · exact Or.inl (h ▸ List.mem_cons_self _ _)
          · intro u hu
            rcases List.mem_cons.1 hu with rfl | hu
            · exact hu0
            · exact hrest u hu
          · exact h2 ▸ hu0
          · intro u hu hlen
            rcases List.mem_cons.1 hu with rfl | hu
            · exact hdegu0 hlen
            · exact hdegrest u hu hlen
          · intro hlen
            exact le_of_lt (lt_of_lt_of_le h3 (hdegu0 (by omega)))
        · obtain ⟨v, hv, hmem, hrest, hc, hdegrest, hdegc⟩ := ih c
          have hstep : suvGo cw dom (u0 :: rest) (some ((dom c).length, c)) =
              suvGo cw dom rest (some ((dom c).length, c)) := by
            simp only [suvGo]
            rw [if_neg h1, if_pos h2, if_neg h3]
          refine ⟨v, hstep ▸ hv, ?_, ?_, hc, ?_, hdegc⟩
          · rcases hmem with h | h
            · exact Or.inl (List.mem_cons_of_mem _ h)
            · exact Or.inr h
          · intro u hu
            rcases List.mem_cons.1 hu with rfl | hu
            · exact h2 ▸ hc
            · exact hrest u hu
          · intro u hu hlen
            rcases List.mem_cons.1 hu with rfl | hu
            · exact le_trans (not_lt.1 h3) (hdegc (by omega))
            · exact hdegrest u hu hlen
      · obtain ⟨v, hv, hmem, hrest, hc, hdegrest, hdegc⟩ := ih c
        have hstep : suvGo cw dom (u0 :: rest) (some ((dom c).length, c)) =
            suvGo cw dom rest (some ((dom c).length, c)) := by
          simp only [suvGo]
          rw [if_neg h1, if_neg h2]
        refine ⟨v, hstep ▸ hv, ?_, ?_, hc, ?_, hdegc⟩
        · rcases hmem with h | h
          · exact Or.inl (List.mem_cons_of_mem _ h)
          · exact Or.inr h
        · intro u hu
          rcases List.mem_cons.1 hu with rfl | hu
          · omega
          · exact hrest u hu
        · intro u hu hlen
          rcases List.mem_cons.1 hu with rfl | hu
          · exact absurd hlen (by omega)
          · exact hdegrest u hu hlen

/-- A successful dict lookup points at an item of the association list. -/
theorem alookup_mem (a : Assignment) (v : Variable) (w : Word)
    (h : alookup a v = some w) : (v, w) ∈ a := by
  induction a with
  | nil => simp [alookup] at h
  | cons p rest ih =>
    obtain ⟨u, wu⟩ := p
    simp only [alookup] at h
    split at h
    · next heq =>
      obtain rfl := heq
      obtain rfl : wu = w := by injection h
      exact List.mem_cons_self _ _
    · exact List.mem_cons_of_mem _ (ih h)

/-- Inversion of one step of the `consistent` loop. -/
theorem consistentGo_cons (cw : Crossword) (a : Assignment) (v : Variable)
    (w : Word) (rest : List (Variable × Word)) (seen : List Word)
    (h : consistentGo cw a ((v, w) :: rest) seen = true) :
    w ∉ seen ∧ w.length = v.length ∧
    ((neighbors cw v).all fun nb =>
        match alookup a nb with
        | none => true
        | some wn =>
          match cw.overlaps v nb with
          | some (ox, oy) => w.get? ox == wn.get? oy
          | none => true) = true ∧
    consistentGo cw a rest (w :: seen) = true := by
  rw [consistentGo] at h
  split at h
  · exact absurd h (by simp)
  · split at h
    · exact absurd h (by simp)
    · split at h
      · exact absurd h (by simp)
      · next h1 h2 h3 =>
        refine ⟨h1, ?_, ?_, h⟩
        · simpa using h2
        · simpa using h3

/-- Every item checked by the `consistent` loop has a word of the right
length. -/
theorem consistentGo_length (cw : Crossword) (a : Assignment) :
    ∀ (l : List (Variable × Word)) (seen : List Word),
    consistentGo cw a l seen = true → ∀ p ∈ l, p.2.length = p.1.length := by
  intro l
  induction l with
  | nil => intro seen _ p hp; cases hp
  | cons q rest ih =>
    intro seen h p hp
    obtain ⟨v, w⟩ := q
    obtain ⟨-, hlen, -, hrest⟩ := consistentGo_cons cw a v w rest seen h
    rcases List.mem_cons.1 hp with rfl | hp
    · exact hlen
    · exact ih (w :: seen) hrest p hp

/-- Every item checked by the `consistent` loop agrees with each assigned
neighbor at the recorded overlap offsets. -/
theorem consistentGo_nbr (cw : Crossword) (a : Assignment) :
    ∀ (l : List (Variable × Word)) (seen : List Word),
    consistentGo cw a l seen = true →
    ∀ p ∈ l, ∀ nb ∈ neighbors cw p.1, ∀ wn, alookup a nb = some wn →
      ∀ ox oy, cw.overlaps p.1 nb = some (ox, oy) → p.2.get? ox = wn.get? oy := by
  intro l
  induction l with
  | nil => intro seen _ p hp; cases hp
  | cons q rest ih =>
    intro seen h p hp nb hnb wn hwn ox oy hov
    obtain ⟨v, w⟩ := q
    obtain ⟨-, -, hall, hrest⟩ := consistentGo_cons cw a v w rest seen h
    rcases List.mem_cons.1 hp with rfl | hp
    · have hb := List.all_eq_true.1 hall nb hnb
      rw [hwn, hov] at hb
      exact beq_iff_eq.1 hb
    · exact ih (w :: seen) hrest p hp nb hnb wn hwn ox oy hov

/-- The words walked by the `consistent` loop are distinct and disjoint from
the `previously_seen` accumulator. -/
theorem consistentGo_nodup (cw : Crossword) (a : Assignment) :
    ∀ (l : List (Variable × Word)) (seen : List Word), seen.Nodup →
    consistentGo cw a l seen = true → (l.map Prod.snd ++ seen).Nodup := by
  intro l
  induction l with
  | nil =>
    intro seen hseen _
    simpa using hseen
  | cons q rest ih =>
    intro seen hseen h
    obtain ⟨v, w⟩ := q
    obtain ⟨hnotin, -, -, hrest⟩ := consistentGo_cons cw a v w rest seen h
    have hnd := ih (w :: seen) (List.nodup_cons.2 ⟨hnotin, hseen⟩) hrest
    have hperm : (rest.map Prod.snd ++ w :: seen).Perm
        (w :: (rest.map Prod.snd ++ seen)) := List.perm_middle
    have := hperm.nodup_iff.1 hnd
    simpa using this

/-- Sound results of the search: a returned assignment extends the input,
is complete and passes `consistent`, provided the input itself does. -/
theorem backtrackF_sound (cw : Crossword) (dom : Domains) :
    ∀ (fuel : Nat) (a r : Assignment),
    backtrackF cw dom fuel a = some (some r) → consistent cw a = true →
    assignment_complete cw r = true ∧ consistent cw r = true ∧ Extends r a := by
  intro fuel
  induction fuel with
  | zero =>
    intro a r h _
    simp [backtrackF] at h
  | succ fuel ih =>
    intro a r h hcons
    rw [backtrackF] at h
    by_cases hcomp : assignment_complete cw a = true
    · rw [if_pos hcomp] at h
      obtain rfl : a = r := by
        injection h with h'
        injection h'
      exact ⟨hcomp, hcons, fun p hp => hp⟩
    · rw [if_neg hcomp] at h
      cases hsel : select_unassigned_variable cw dom a with
      | none =>
        rw [hsel] at h
        injection h with h'
        cases h'
      | some v =>
        rw [hsel] at h
        have htry : ∀ (vals : List Word) (r : Assignment),
            tryVals cw (backtrackF cw dom fuel) a v vals = some (some r) →
            assignment_complete cw r = true ∧ consistent cw r = true ∧ Extends r a := by
          intro vals
          induction vals with
          | nil =>
            intro r h2
            rw [tryVals] at h2
            injection h2 with h'
            cases h'
          | cons w ws ihw =>
            intro r h2
            rw [tryVals] at h2
            split at h2
            · next hcons2 =>
              cases hbt : backtrackF cw dom fuel ((v, w) :: a) with
              | none => rw [hbt] at h2; cases h2
              | some o =>
                cases o with
                | none =>
                  rw [hbt] at h2
                  exact ihw r h2
                | some r2 =>
                  rw [hbt] at h2
                  have heq : r2 = r := by
                    injection h2 with h'
                    injection h'
                  subst heq
                  obtain ⟨hc, hk, hext⟩ := ih ((v, w) :: a) _ hbt hcons2
                  exact ⟨hc, hk, fun p hp => hext p (List.mem_cons_of_mem _ hp)⟩
            · exact ihw r h2
        exact htry _ r h

/-- Filtering with a stronger predicate that some surviving element fails is
strictly shorter. -/
theorem length_filter_lt (l : List Variable) (p q : Variable → Bool)
    (hpq : ∀ u, q u = true → p u = true) (x : Variable) (hx : x ∈ l)
    (hpx : p x = true) (hqx : q x = false) :
    (l.filter q).length < (l.filter p).length := by
  have hsub : (l.filter q).Sublist (l.filter p) := List.monotone_filter_right l hpq
  rcases lt_or_eq_of_le hsub.length_le with hlt | heq
  · exact hlt
  · exfalso
    have := hsub.eq_of_length heq
    have hxq : x ∈ l.filter q := by
      rw [this]
      exact List.mem_filter.2 ⟨hx, hpx⟩
    have := (List.mem_filter.1 hxq).2
    rw [hqx] at this
    cases this

/-- Assigning a fresh variable strictly decreases the number of unassigned
variables. -/
theorem unassignedCount_lt (cw : Crossword) (a : Assignment) (v : Variable)
    (w : Word) (hv : v ∈ cw.vars) (hnone : alookup a v = none) :
    unassignedCount cw ((v, w) :: a) < unassignedCount cw a := by
  unfold unassignedCount
  refine length_filter_lt cw.vars _ _ (fun u hu => ?_) v hv ?_ ?_
  · simp only [alookup] at hu
    split at hu
    · cases hu
    · exact hu
  · rw [hnone]; rfl
  · simp [alookup]

/-- Specification of `select_unassigned_variable` on incomplete assignments:
it returns an unassigned variable of minimal domain size, with maximal
neighbor count among those tied at that size. -/
theorem select_unassigned_variable_spec (cw : Crossword) (dom : Domains) (a : Assignment)
    (h : assignment_complete cw a = false) :
    ∃ v, select_unassigned_variable cw dom a = some v ∧
      v ∈ cw.vars ∧ alookup a v = none ∧
      (∀ u ∈ cw.vars, alookup a u = none → (dom v).length ≤ (dom u).length) ∧
      (∀ u ∈ cw.vars, alookup a u = none → (dom u).length = (dom v).length →
        (neighbors cw u).length ≤ (neighbors cw v).length) := by
  unfold assignment_complete at h
  obtain ⟨x, hxvars, hxnone⟩ := List.all_eq_false.1 h
  have hxL : x ∈ cw.vars.filter fun v => (alookup a v).isNone :=
    List.mem_filter.2 ⟨hxvars, by
      cases halo : alookup a x with
      | none => rfl
      | some w => rw [halo] at hxnone; exact absurd rfl hxnone⟩
  unfold select_unassigned_variable
  cases hL : cw.vars.filter fun v => (alookup a v).isNone with
  | nil => rw [hL] at hxL; exact absurd hxL (List.not_mem_nil x)
  | cons u0 rest =>
    obtain ⟨v, hv, hmem, hrest, hu0, hdegrest, hdegu0⟩ := suvGo_spec cw dom rest u0
    have hvL : v ∈ cw.vars.filter fun v => (alookup a v).isNone := by
      rw [hL]
      rcases hmem with hm | hm
      · exact List.mem_cons_of_mem _ hm
      · exact hm ▸ List.mem_cons_self _ _
    have hvfacts := List.mem_filter.1 hvL
    refine ⟨v, ?_, hvfacts.1, Option.isNone_iff_eq_none.1 hvfacts.2, ?_, ?_⟩
    · exact hv
    · intro u hu hunone
      have huL : u ∈ u0 :: rest := by
        rw [← hL]
        exact List.mem_filter.2 ⟨hu, by rw [hunone]; rfl⟩
      rcases List.mem_cons.1 huL with rfl | huR
      · exact hu0
      · exact hrest u huR
    · intro u hu hunone hlen
      have huL : u ∈ u0 :: rest := by
        rw [← hL]
        exact List.mem_filter.2 ⟨hu, by rw [hunone]; rfl⟩
      rcases List.mem_cons.1 huL with rfl | huR
      · exact hdegu0 (by omega)
      · exact hdegrest u huR hlen

/-- With fuel exceeding the number of unassigned variables, the search always
produces an answer (the fuel bound is never hit). -/
theorem backtrackF_isSome (cw : Crossword) (dom : Domains) :
    ∀ (fuel : Nat) (a : Assignment), unassignedCount cw a < fuel →
    backtrackF cw dom fuel a ≠ none := by
  intro fuel
  induction fuel with
  | zero => intro a h; omega
  | succ fuel ih =>
    intro a h
    rw [backtrackF]
    by_cases hcomp : assignment_complete cw a = true
    · rw [if_pos hcomp]
      simp
    · rw [if_neg hcomp]
      obtain ⟨v, hsel, hvvars, hvnone, -, -⟩ :=
        select_unassigned_variable_spec cw dom a (by
          cases hc : assignment_complete cw a
          · rfl
          · exact absurd hc hcomp)
      rw [hsel]
      have htry : ∀ vals : List Word,
          tryVals cw (backtrackF cw dom fuel) a v vals ≠ none := by
        intro vals
        induction vals with
        | nil => rw [tryVals]; simp
        | cons w ws ihw =>
          rw [tryVals]
          split
          · cases hbt : backtrackF cw dom fuel ((v, w) :: a) with
            | none =>
              exfalso
              refine ih ((v, w) :: a) ?_ hbt
              have hdec := unassignedCount_lt cw a v w hvvars hvnone
              omega
            | some o =>
              cases o with
              | none => exact ihw
              | some r => simp
          · exact ihw
      exact htry _

/-- C9.  Whenever the assignment leaves some crossword variable unassigned,
`select_unassigned_variable` returns an unassigned variable whose current
domain size is minimal among the unassigned ones and whose neighbor count is
maximal among those tied at that minimal size. -/
theorem claim_C9_mrv_selection (cw : Crossword) (dom : Domains) (a : Assignment)
    (h : assignment_complete cw a = false) :
    ∃ v, select_unassigned_variable cw dom a = some v ∧
      v ∈ cw.vars ∧ alookup a v = none ∧
      (∀ u ∈ cw.vars, alookup a u = none → (dom v).length ≤ (dom u).length) ∧
      (∀ u ∈ cw.vars, alookup a u = none → (dom u).length = (dom v).length →
        (neighbors cw u).length ≤ (neighbors cw v).length) :=
  select_unassigned_variable_spec cw dom a h

/-- Witness for C9 at instance A with the empty assignment: both variables
are unassigned with equal domain sizes and equal degree, and the loop picks
`vA1`. -/
theorem claim_C9_mrv_selection_witness :
    assignment_complete cwA [] = false ∧
    ∃ v, select_unassigned_variable cwA domA [] = some v ∧
      v ∈ cwA.vars ∧ alookup [] v = none ∧
      (∀ u ∈ cwA.vars, alookup [] u = none → (domA v).length ≤ (domA u).length) ∧
      (∀ u ∈ cwA.vars, alookup [] u = none → (domA u).length = (domA v).length →
        (neighbors cwA u).length ≤ (neighbors cwA v).length) :=
  ⟨by decide, claim_C9_mrv_selection cwA domA [] (by decide)⟩

/-- Two length-1 words agreeing at index 0 are equal. -/
theorem word_eq_of_get0 (w1 w2 : Word) (h1 : w1.length = 1) (h2 : w2.length = 1)
    (h : w1.get? 0 = w2.get? 0) : w1 = w2 := by
  match w1, w2, h1, h2 with
  | [c1], [c2], _, _ => simpa using h

/-- Instance U admits no consistent complete assignment at all: its two
crossing length-1 slots would need two distinct words that agree at their
only character. -/
theorem cwU_no_solution :
    ¬ ∃ r, Extends r [] ∧ assignment_complete cwU r = true ∧
      consistent cwU r = true := by
  rintro ⟨r, -, hcomp, hcons⟩
  obtain ⟨w1, hw1⟩ : ∃ w, alookup r vU1 = some w :=
    Option.isSome_iff_exists.1 (List.all_eq_true.1 hcomp vU1 (by decide))
  obtain ⟨w2, hw2⟩ : ∃ w, alookup r vU2 = some w :=
    Option.isSome_iff_exists.1 (List.all_eq_true.1 hcomp vU2 (by decide))
  have hm1 := alookup_mem r vU1 w1 hw1
  have hm2 := alookup_mem r vU2 w2 hw2
  have hlen1 : w1.length = 1 := consistentGo_length cwU r r [] hcons (vU1, w1) hm1
  have hlen2 : w2.length = 1 := consistentGo_length cwU r r [] hcons (vU2, w2) hm2
  have hnb : vU2 ∈ neighbors cwU vU1 := by decide
  have hov : cwU.overlaps vU1 vU2 = some (0, 0) := rfl
  have hagree := consistentGo_nbr cwU r r [] hcons (vU1, w1) hm1 vU2 hnb w2 hw2 0 0 hov
  have heq : w1 = w2 := word_eq_of_get0 w1 w2 hlen1 hlen2 hagree
  have hnd : (r.map Prod.snd).Nodup := by
    have := consistentGo_nodup cwU r r [] List.nodup_nil hcons
    simpa using this
  have hpair : (vU1, w1) = (vU2, w2) :=
    List.inj_on_of_nodup_map hnd hm1 hm2 (by simpa using heq)
  have : vU1 = vU2 := congrArg Prod.fst hpair
  exact absurd this (by decide)

/-- C1.  If the search started from the empty assignment (as `solve` starts
it, on whatever domain store node- and arc-consistency enforcement produced)
returns an assignment rather than the no-solution sentinel, that assignment
gives every puzzle variable a word, assigns no word twice, respects every
variable's length, and makes all neighboring pairs agree at their recorded
overlap offsets. -/
theorem claim_C1_search_soundness (cw : Crossword) (dom : Domains) (fuel : Nat)
    (r : Assignment) (h : backtrackF cw dom fuel [] = some (some r)) :
    (∀ v ∈ cw.vars, ∃ w, alookup r v = some w) ∧
    (∀ v1 w1 v2 w2, (v1, w1) ∈ r → (v2, w2) ∈ r → v1 ≠ v2 → w1 ≠ w2) ∧
    (∀ v w, (v, w) ∈ r → w.length = v.length) ∧
    (∀ v w nb wn ox oy, (v, w) ∈ r → nb ∈ neighbors cw v →
      alookup r nb = some wn → cw.overlaps v nb = some (ox, oy) →
      w.get? ox = wn.get? oy) := by
  obtain ⟨hcomp, hcons, -⟩ := backtrackF_sound cw dom fuel [] r h rfl
  refine ⟨?_, ?_, ?_, ?_⟩
  · intro v hv
    exact Option.isSome_iff_exists.1 (List.all_eq_true.1 hcomp v hv)
  · intro v1 w1 v2 w2 h1 h2 hne heq
    subst heq
    have hnd : (r.map Prod.snd).Nodup := by
      have := consistentGo_nodup cw r r [] List.nodup_nil hcons
      simpa using this
    have hpair := List.inj_on_of_nodup_map hnd h1 h2 rfl
    exact hne (congrArg Prod.fst hpair)
  · intro v w hm
    exact consistentGo_length cw r r [] hcons (v, w) hm
  · intro v w nb wn ox oy hm hnb hwn hov
    exact consistentGo_nbr cw r r [] hcons (v, w) hm nb hnb wn hwn ox oy hov

/-- Witness for C1 at instance A: the search returns `aSolA`, which is
complete, duplicate-free, length-correct and overlap-consistent. -/
theorem claim_C1_search_soundness_witness :
    backtrackF cwA domA 5 [] = some (some aSolA) ∧
    ((∀ v ∈ cwA.vars, ∃ w, alookup aSolA v = some w) ∧
     (∀ v1 w1 v2 w2, (v1, w1) ∈ aSolA → (v2, w2) ∈ aSolA → v1 ≠ v2 → w1 ≠ w2) ∧
     (∀ v w, (v, w) ∈ aSolA → w.length = v.length) ∧
     (∀ v w nb wn ox oy, (v, w) ∈ aSolA → nb ∈ neighbors cwA v →
        alookup aSolA nb = some wn → cwA.overlaps v nb = some (ox, oy) →
        w.get? ox = wn.get? oy)) :=
  ⟨rfl, claim_C1_search_soundness cwA domA 5 aSolA rfl⟩

/-- C8 (amended).  With fuel above the number of unassigned variables — the
recursion depth never exceeds that, so the Python recursion terminates — the
search always returns; and when the given assignment is consistent and no
complete consistent assignment extends it, the search returns the
no-solution sentinel.  (The consistency proviso is forced by the
counterexample `claim_C8_counterexample`.) -/
theorem claim_C8_backtrack_termination (cw : Crossword) (dom : Domains)
    (a : Assignment) (fuel : Nat) (hfuel : unassignedCount cw a < fuel) :
    backtrackF cw dom fuel a ≠ none ∧
    (consistent cw a = true →
      (¬ ∃ r, Extends r a ∧ assignment_complete cw r = true ∧
        consistent cw r = true) →
      backtrackF cw dom fuel a = some none) := by
  refine ⟨backtrackF_isSome cw dom fuel a hfuel, fun hcons hno => ?_⟩
  cases hbt : backtrackF cw dom fuel a with
  | none => exact absurd hbt (backtrackF_isSome cw dom fuel a hfuel)
  | some o =>
    cases o with
    | none => rfl
    | some r =>
      exfalso
      obtain ⟨hc, hk, hext⟩ := backtrackF_sound cw dom fuel a r hbt hcons
      exact hno ⟨r, hext, hc, hk⟩

/-- Witness for C8 at instance U from the empty assignment: the fuel bound
holds, the input is consistent, no complete consistent assignment exists,
and the search indeed terminates with the no-solution sentinel. -/
theorem claim_C8_backtrack_termination_witness :
    backtrackF cwU (initialDomains cwU) 5 [] ≠ none ∧
    backtrackF cwU (initialDomains cwU) 5 [] = some none :=
  ⟨(claim_C8_backtrack_termination cwU (initialDomains cwU) [] 5 (by decide)).1,
   (claim_C8_backtrack_termination cwU (initialDomains cwU) [] 5 (by decide)).2
     rfl cwU_no_solution⟩

/-- C8 (counterexample to the claim as stated).  `aBad` is an assignment no
complete consistent assignment extends (its word has the wrong length), yet
`backtrack` does not return the no-solution sentinel on it: it returns `aBad`
itself, because completeness is checked before consistency. -/
theorem claim_C8_counterexample :
    (¬ ∃ r, Extends r aBad ∧ assignment_complete cwD r = true ∧
        consistent cwD r = true) ∧
    backtrackF cwD (initialDomains cwD) 5 aBad = some (some aBad) := by
  constructor
  · rintro ⟨r, hext, -, hcons⟩
    have hmem : (vD1, ['a']) ∈ r := hext (vD1, ['a']) (List.mem_cons_self _ _)
    have hlen := consistentGo_length cwD r r [] hcons (vD1, ['a']) hmem
    exact absurd hlen (by decide)
  · rfl

/-- Unfolding of membership in the neighbor set. -/
theorem mem_neighbors_iff (cw : Crossword) (x y : Variable) :
    y ∈ neighbors cw x ↔ y ∈ cw.vars ∧ y ≠ x ∧ (cw.overlaps x y).isSome := by
  unfold neighbors
  rw [List.mem_filter]
  constructor
  · rintro ⟨h1, h2⟩
    rw [Bool.and_eq_true] at h2
    exact ⟨h1, bne_iff_ne.1 h2.1, h2.2⟩
  · rintro ⟨h1, h2, h3⟩
    exact ⟨h1, by rw [Bool.and_eq_true]; exact ⟨bne_iff_ne.2 h2, h3⟩⟩

/-- With a symmetric overlap index the neighbor relation is symmetric on
puzzle variables. -/
theorem neighbors_symm (cw : Crossword) (hsym : OverlapsSymm cw) (x y : Variable)
    (hx : x ∈ cw.vars) (h : y ∈ neighbors cw x) : x ∈ neighbors cw y := by
  obtain ⟨hyv, hyne, hov⟩ := (mem_neighbors_iff cw x y).1 h
  exact (mem_neighbors_iff cw y x).2 ⟨hx, fun he => hyne he.symm, hsym x y hov⟩

/-- The default worklist is well formed. -/
theorem defaultArcs_wf (cw : Crossword) : ArcsWF cw (defaultArcs cw) := by
  intro p hp
  unfold defaultArcs at hp
  rw [List.mem_flatMap] at hp
  obtain ⟨x, hx, hp2⟩ := hp
  obtain ⟨y, hy, rfl⟩ := List.mem_map.1 hp2
  exact ⟨hx, hy⟩

/-- The default worklist carries every neighbor arc, so the loop invariant
holds initially. -/
theorem defaultArcs_inv (cw : Crossword) (dom : Domains) :
    ArcsInv cw dom (defaultArcs cw) := by
  intro a b ha hb
  left
  unfold defaultArcs
  rw [List.mem_flatMap]
  exact ⟨a, ha, List.mem_map.2 ⟨b, hb, rfl⟩⟩

/-- Invariant argument for the AC-3 worklist loop: when the loop exhausts its
(well-formed) worklist and no non-empty domain has been emptied, every
neighbor arc is consistent under the final domains. -/
theorem ac3Go_arcCons (cw : Crossword) (hsym : OverlapsSymm cw) :
    ∀ (fuel : Nat) (dom : Domains) (arcs : List (Variable × Variable))
      (dom' : Domains) (bb : Bool),
    ac3Go cw fuel dom arcs = some (dom', bb) →
    ArcsWF cw arcs → ArcsInv cw dom arcs →
    (∀ v ∈ cw.vars, dom v ≠ [] → dom' v ≠ []) →
    ∀ x ∈ cw.vars, ∀ y ∈ neighbors cw x, arcCons cw dom' x y := by
  intro fuel
  induction fuel with
  | zero =>
    intro dom arcs dom' bb h
    simp [ac3Go] at h
  | succ fuel ih =>
    intro dom arcs dom' bb h hwf hinv hne
    cases arcs with
    | nil =>
      have hdd : dom = dom' := by
        rw [ac3Go] at h
        injection h with h'
        exact congrArg Prod.fst h'
      subst hdd
      intro x hx y hy
      rcases hinv x y hx hy with hmem | hc
      · exact absurd hmem (List.not_mem_nil _)
      · exact hc
    | cons p rest =>
      obtain ⟨px, py⟩ := p
      rw [ac3Go] at h
      have hpxv : px ∈ cw.vars := (hwf (px, py) (List.mem_cons_self _ _)).1
      have hpynb : py ∈ neighbors cw px := (hwf (px, py) (List.mem_cons_self _ _)).2
      have hpyne : py ≠ px := ((mem_neighbors_iff cw px py).1 hpynb).2.1
      cases hrev : revise cw dom px py with
      | mk domR flag =>
        rw [hrev] at h
        cases flag with
        | false =>
          have h2 : ac3Go cw fuel dom rest = some (dom', bb) := h
          have hwf' : ArcsWF cw rest := fun q hq => hwf q (List.mem_cons_of_mem _ hq)
          have hinv' : ArcsInv cw dom rest := by
            intro a b ha hb
            rcases hinv a b ha hb with hmem | hc
            · rcases List.mem_cons.1 hmem with heq | hmem2
              · right
                rw [Prod.ext_iff] at heq
                obtain ⟨ha1, hb1⟩ := heq
                subst ha1
                subst hb1
                intro ox oy hov wx hwx
                exact revise_false_supported cw dom a b ox oy hov (by rw [hrev]) wx hwx
              · exact Or.inl hmem2
            · exact Or.inr hc
          exact ih dom rest dom' bb h2 hwf' hinv' hne
        | true =>
          by_cases hemp : (domR px).length = 0
          · have h2 : some (domR, false) = some (dom', bb) := by
              have h3 : (if (domR px).length = 0 then some (domR, false)
                  else ac3Go cw fuel domR
                    (rest ++ (ac3Requeue cw domR px py).map fun z => (z, px))) =
                  some (dom', bb) := h
              rw [if_pos hemp] at h3
              exact h3
            exfalso
            have hdd : domR = dom' := by
              injection h2 with h'
              exact congrArg Prod.fst h'
            have hflag : (revise cw dom px py).2 = true := by rw [hrev]
            have hovs : (cw.overlaps px py).isSome :=
              ((mem_neighbors_iff cw px py).1 hpynb).2.2
            obtain ⟨q, hov⟩ := Option.isSome_iff_exists.1 hovs
            obtain ⟨ox, oy⟩ := q
            obtain ⟨w0, hw0, -⟩ := (revise_snd_iff cw dom px py ox oy hov).1 hflag
            have hdomne : dom px ≠ [] := fun hempty => by
              rw [hempty] at hw0
              exact (List.not_mem_nil w0) hw0
            have hfin := hne px hpxv hdomne
            rw [← hdd] at hfin
            exact hfin (List.length_eq_zero.1 hemp)
          · have h2 : ac3Go cw fuel domR
                (rest ++ (ac3Requeue cw domR px py).map fun z => (z, px)) =
                some (dom', bb) := by
              have h3 : (if (domR px).length = 0 then some (domR, false)
                  else ac3Go cw fuel domR
                    (rest ++ (ac3Requeue cw domR px py).map fun z => (z, px))) =
                  some (dom', bb) := h
              rw [if_neg hemp] at h3
              exact h3
            have hreq : ac3Requeue cw domR px py = neighbors cw px :=
              ac3Requeue_eq cw domR px py
            have hsubR : ∀ v w, w ∈ domR v → w ∈ dom v := by
              intro v w hw
              by_cases hvx : v = px
              · subst hvx
                have hw2 : w ∈ (revise cw dom v py).1 v := by rw [hrev]; exact hw
                exact revise_mem_sub cw dom v py w hw2
              · have heq : domR v = dom v := by
                  have := revise_fst_ne cw dom px py v hvx
                  rw [hrev] at this
                  exact this
                rw [← heq]
                exact hw
            have hwf' : ArcsWF cw
                (rest ++ (ac3Requeue cw domR px py).map fun z => (z, px)) := by
              intro q hq
              rcases List.mem_append.1 hq with hq1 | hq2
              · exact hwf q (List.mem_cons_of_mem _ hq1)
              · obtain ⟨z, hz, rfl⟩ := List.mem_map.1 hq2
                rw [hreq] at hz
                exact ⟨((mem_neighbors_iff cw px z).1 hz).1,
                  neighbors_symm cw hsym px z hpxv hz⟩
            have hinv' : ArcsInv cw domR
                (rest ++ (ac3Requeue cw domR px py).map fun z => (z, px)) := by
              intro a b ha hb
              by_cases hbx : b = px
              · subst hbx
                left
                apply List.mem_append_right
                apply List.mem_map.2
                refine ⟨a, ?_, rfl⟩
                rw [hreq]
                exact neighbors_symm cw hsym a b ha hb
              · have hdomb : domR b = dom b := by
                  have := revise_fst_ne cw dom px py b hbx
                  rw [hrev] at this
                  exact this
                by_cases hax : a = px
                · rcases hinv a b ha hb with hmem | hc
                  · rcases List.mem_cons.1 hmem with heq | hmem2
                    · have hbpy : b = py := by
                        rw [Prod.ext_iff] at heq
                        exact heq.2
                      subst hbpy
                      subst hax
                      right
                      intro ox oy hov wx hwx
                      have hwx2 : wx ∈ (revise cw dom a b).1 a := by
                        rw [hrev]; exact hwx
                      obtain ⟨-, w2, hw2, hagree⟩ :=
                        (revise_mem_iff cw dom a b ox oy hov wx).1 hwx2
                      exact ⟨w2, by rw [hdomb]; exact hw2, hagree⟩
                    · exact Or.inl (List.mem_append_left _ hmem2)
                  · right
                    intro ox oy hov wx hwx
                    obtain ⟨w2, hw2, hagree⟩ := hc ox oy hov wx (hsubR a wx hwx)
                    exact ⟨w2, by rw [hdomb]; exact hw2, hagree⟩
                · have hdoma : domR a = dom a := by
                    have := revise_fst_ne cw dom px py a hax
                    rw [hrev] at this
                    exact this
                  rcases hinv a b ha hb with hmem | hc
                  · rcases List.mem_cons.1 hmem with heq | hmem2
                    · exfalso
                      apply hax
                      rw [Prod.ext_iff] at heq
                      exact heq.1
                    · exact Or.inl (List.mem_append_left _ hmem2)
                  · right
                    intro ox oy hov wx hwx
                    rw [hdoma] at hwx
                    obtain ⟨w2, hw2, hagree⟩ := hc ox oy hov wx hwx
                    exact ⟨w2, by rw [hdomb]; exact hw2, hagree⟩
            have hne' : ∀ v ∈ cw.vars, domR v ≠ [] → dom' v ≠ [] := by
              intro v hv hvne
              apply hne v hv
              intro hdve
              apply hvne
              cases hR : domR v with
              | nil => rfl
              | cons w ws =>
                exfalso
                have hmem : w ∈ dom v := hsubR v w (by
                  rw [hR]
                  exact List.mem_cons_self _ _)
                rw [hdve] at hmem
                exact (List.not_mem_nil w) hmem
            exact ih domR _ dom' bb h2 hwf' hinv' hne'

/-- C5.  If `ac3`, started on the default worklist (every `(x, y)` with `y`
in `neighbors(x)`), terminates without emptying any (non-empty) domain, the
resulting domains are pairwise arc-consistent: every word of a variable's
domain has a supporting word in each neighbor's domain at the recorded
overlap offsets.  Symmetry of the overlap index is the spec's data-model
invariant. -/
theorem claim_C5_ac3_postcondition (cw : Crossword) (dom dom' : Domains)
    (fuel : Nat) (bb : Bool) (hsym : OverlapsSymm cw)
    (h : ac3 cw dom none fuel = some (dom', bb))
    (hne : ∀ v ∈ cw.vars, dom v ≠ [] → dom' v ≠ []) :
    ∀ x ∈ cw.vars, ∀ y ∈ neighbors cw x, ∀ ox oy,
      cw.overlaps x y = some (ox, oy) →
      ∀ wx ∈ dom' x, ∃ wy, wy ∈ dom' y ∧ wx.get? ox = wy.get? oy := by
  intro x hx y hy ox oy hov wx hwx
  have hgo : ac3Go cw fuel dom (defaultArcs cw) = some (dom', bb) := h
  exact ac3Go_arcCons cw hsym fuel dom (defaultArcs cw) dom' bb hgo
    (defaultArcs_wf cw) (defaultArcs_inv cw dom) hne x hx y hy ox oy hov wx hwx

/-- The overlap index of instance A is symmetric. -/
theorem cwA_overlaps_symm : OverlapsSymm cwA := by
  intro a b h
  by_cases h1 : (a = vA1 ∧ b = vA2) ∨ (b = vA1 ∧ a = vA2)
  · have h2 : (b = vA1 ∧ a = vA2) ∨ (a = vA1 ∧ b = vA2) := h1.symm
    show (if (b = vA1 ∧ a = vA2) ∨ (a = vA1 ∧ b = vA2)
        then some ((0 : Nat), (0 : Nat)) else none).isSome
    rw [if_pos h2]
    rfl
  · exfalso
    have hnone : cwA.overlaps a b = none := by
      show (if (a = vA1 ∧ b = vA2) ∨ (b = vA1 ∧ a = vA2)
          then some ((0 : Nat), (0 : Nat)) else none) = none
      rw [if_neg h1]
    rw [hnone] at h
    exact Bool.false_ne_true h

/-- Witness for C5 at instance A: the run exhausts the default worklist
without removing anything, and the final (= initial) domains are pairwise
arc-consistent. -/
theorem claim_C5_ac3_postcondition_witness :
    ac3 cwA domA none 10 = some (domA, false) ∧
    (∀ v ∈ cwA.vars, domA v ≠ [] → domA v ≠ []) ∧
    (∀ x ∈ cwA.vars, ∀ y ∈ neighbors cwA x, ∀ ox oy,
      cwA.overlaps x y = some (ox, oy) →
      ∀ wx ∈ domA x, ∃ wy, wy ∈ domA y ∧ wx.get? ox = wy.get? oy) :=
  ⟨rfl, by decide,
   claim_C5_ac3_postcondition cwA domA domA 10 false cwA_overlaps_symm rfl (by decide)⟩

/-- Witness for C10 at instance A: both offsets are 0, both slots have
length 2, and every word of the node-consistent domains is indexable at 0. -/
theorem claim_C10_revise_index_safe_witness :
    cwA.overlaps vA1 vA2 = some (0, 0) ∧ 0 < vA1.length ∧ 0 < vA2.length ∧
    ((∀ w ∈ enforce_node_consistency cwA domA vA1, 0 < w.length ∧ (w.get? 0).isSome) ∧
     (∀ w2 ∈ enforce_node_consistency cwA domA vA2, 0 < w2.length ∧ (w2.get? 0).isSome)) :=
  ⟨rfl, by decide, by decide,
   claim_C10_revise_index_safe cwA domA vA1 vA2 0 0 rfl (by decide) (by decide)⟩

end CrosswordCSP
